import Mathlib

/-!
Verification development for the DCSim workload generator
(`src/Workload.cpp`, `sgbatch/src/SimpleSimulator.cpp`).

The C++ core is embedded shallowly:
* machine doubles are modelled as exact rationals (`ℚ`), machine integers as
  `ℤ`/`ℕ`;
* the pseudo-random generator is modelled as an explicit stream of drawn
  values (`List ℚ` / `List ℤ`) threaded through every sampling call;
* the WRENCH workflow object is modelled as a record of task, file and
  control-edge lists, with tasks addressed by their creation index;
* fallible operations (a rejection loop that never accepts, the null
  dereference of `endtask`) return `Option`/`Except`.
-/

/-- A WRENCH `DataFile`: name and size in bytes. -/
structure WFile where
  id : String
  size : ℚ
deriving DecidableEq

/-- Task kind as in the spec's data model: `dummytask_*` tasks are Transfer
tasks, `task_*` tasks are Compute tasks. -/
inductive TaskKind where
  | transfer
  | compute
deriving DecidableEq

/-- A WRENCH `WorkflowTask` as created by `Workflow::addTask(id, flops,
min_num_cores, max_num_cores, memory)`, together with the input/output files
attached by `addInputFile`/`addOutputFile`. -/
structure WTask where
  id : String
  kind : TaskKind
  flops : ℚ
  minCores : ℕ
  maxCores : ℕ
  mem : ℚ
  inputFiles : List WFile
  outputFiles : List WFile
deriving DecidableEq

/-- The WRENCH `Workflow`: tasks in creation order (addressed by index),
files in creation order, and control edges as (parent index, child index). -/
structure Workflow where
  tasks : List WTask
  files : List WFile
  edges : List (ℕ × ℕ)
deriving DecidableEq

/-- Modify the element at an index of a list (identity out of range). -/
def modifyIdx (l : List α) (i : ℕ) (g : α → α) : List α :=
  match l, i with
  | [], _ => []
  | a :: t, 0 => g a :: t
  | a :: t, i + 1 => a :: modifyIdx t i g

/-- `workflow->addTask(id, flops, min, max, mem)`: appends a task, returns its
creation index. The `kind` ghost field records the Transfer/Compute
classification of the spec's data model. -/
def Workflow.addTask (wf : Workflow) (id : String) (kind : TaskKind)
    (flops : ℚ) (minCores maxCores : ℕ) (mem : ℚ) : Workflow × ℕ :=
  ({ wf with tasks := wf.tasks ++ [⟨id, kind, flops, minCores, maxCores, mem, [], []⟩] },
   wf.tasks.length)

/-- `workflow->addFile(id, size)`: registers a file and returns it. -/
def Workflow.addFile (wf : Workflow) (id : String) (size : ℚ) : Workflow × WFile :=
  ({ wf with files := wf.files ++ [⟨id, size⟩] }, ⟨id, size⟩)

/-- `task->addInputFile(f)` on the task with creation index `i`. -/
def Workflow.addInputFile (wf : Workflow) (i : ℕ) (f : WFile) : Workflow :=
  { wf with tasks := modifyIdx wf.tasks i (fun t => { t with inputFiles := t.inputFiles ++ [f] }) }

/-- `task->addOutputFile(f)` on the task with creation index `i`. -/
def Workflow.addOutputFile (wf : Workflow) (i : ℕ) (f : WFile) : Workflow :=
  { wf with tasks := modifyIdx wf.tasks i (fun t => { t with outputFiles := t.outputFiles ++ [f] }) }

/-- `workflow->addControlDependency(parent, child)`. -/
def Workflow.addControlDependency (wf : Workflow) (p c : ℕ) : Workflow :=
  { wf with edges := wf.edges ++ [(p, c)] }

/-- The effective block size used for one input file:
`if (!use_blockstreaming) xrd_block_size = dinsize;`. -/
def effBlockSize (use_blockstreaming : Bool) (xrd_block_size dinsize : ℚ) : ℚ :=
  if use_blockstreaming then xrd_block_size else dinsize

/-- The sizes of the blocks an input file of size `dinsize` is chunked into:
`nblocks = static_cast<size_t>(dinsize/xrd_block_size)` full blocks of size
`xrd_block_size` (truncation = floor for the nonnegative values arising here),
followed by one remainder block of size `dinsize - nblocks*xrd_block_size`
when that difference is nonzero
(`if (double blocksize = (dinsize - nblocks*xrd_block_size))`). -/
def blockSizes (dinsize bs : ℚ) : List ℚ :=
  let nblocks : ℕ := (⌊dinsize / bs⌋).toNat
  let rem : ℚ := dinsize - nblocks * bs
  List.replicate nblocks bs ++ (if rem = 0 then [] else [rem])

/-- Number of blocks an input file of size `s` contributes. -/
def fileBlockCount (use_blockstreaming : Bool) (xrd_block_size s : ℚ) : ℕ :=
  (blockSizes s (effBlockSize use_blockstreaming xrd_block_size s)).length

/-- The accepted samples for one job of `fill_streaming_workflow`: the task
flops and memory drawn once per job and the input-file sizes drawn once per
file.  Sampling itself (normal distribution plus rejection loop) is modelled
separately by `sampleResource`; the builder is a pure function of the
accepted values. -/
structure JobData where
  dflops : ℚ
  dmem : ℚ
  sizes : List ℚ
deriving DecidableEq

/-- The body shared by the full-block loop and the remainder branch of
`fill_streaming_workflow`: create the dummy (Transfer) task with its input
block, link it to the previous dummy task if one exists, create the paired
Compute task with proportionally split flops, link it to its dummy task and
to the previous Compute task if one exists.  `pr` is the pair
(`dummytask_parent`, `task_parent`) — the two pointers are always set
together in the source, so they are modelled as one optional pair. -/
def addBlock (j f b : ℕ) (dummy_flops dflops dmem dinsize blocksize : ℚ)
    (wf : Workflow) (pr : Option (ℕ × ℕ)) : Workflow × ℕ × ℕ :=
  let r1 := wf.addTask
    ("dummytask_" ++ toString j ++ "_file_" ++ toString f ++ "_block_" ++ toString b)
    TaskKind.transfer dummy_flops 1 1 dummy_flops
  let dummytask := r1.2
  let r2 := r1.1.addFile
    ("infile_" ++ toString j ++ "_file_" ++ toString f ++ "_block_" ++ toString b) blocksize
  let wf2 := r2.1.addInputFile dummytask r2.2
  let wf3 := match pr with
    | some p => wf2.addControlDependency p.1 dummytask
    | none => wf2
  let blockflops := dflops * blocksize / dinsize
  let r3 := wf3.addTask
    ("task_" ++ toString j ++ "_file_" ++ toString f ++ "_block_" ++ toString b)
    TaskKind.compute blockflops 1 1 dmem
  let task := r3.2
  let wf4 := r3.1.addControlDependency dummytask task
  let wf5 := match pr with
    | some p => wf4.addControlDependency p.2 task
    | none => wf4
  (wf5, dummytask, task)

/-- The block loop of `fill_streaming_workflow` for one input file, iterating
over the block sizes of the file (full blocks then remainder block — the
remainder branch repeats the loop body verbatim).  Threads the
parent pair; returns the updated pair, which after a nonempty file is the
file's final (`enddummytask`, `endtask`) pair, and after an empty file is the
pair passed in, exactly as in the source where `enddummytask`/`endtask` are
then left untouched. -/
def addBlocks (j f : ℕ) (dummy_flops dflops dmem dinsize : ℚ) :
    List ℚ → ℕ → Workflow → Option (ℕ × ℕ) → Workflow × Option (ℕ × ℕ)
  | [], _, wf, pr => (wf, pr)
  | s :: rest, b, wf, pr =>
    let r := addBlock j f b dummy_flops dflops dmem dinsize s wf pr
    addBlocks j f dummy_flops dflops dmem dinsize rest (b + 1) r.1 (some r.2)

/-- The file loop of `fill_streaming_workflow` for one job: for each input
file, chunk it into blocks (`blockSizes`) and run the block loop, carrying
the (`enddummytask`, `endtask`) pair across files so that each file's first
block is chained to the previous file's last block. -/
def addJobFiles (j : ℕ) (dummy_flops dflops dmem : ℚ) (use_blockstreaming : Bool)
    (xrd_block_size : ℚ) :
    List ℚ → ℕ → Workflow → Option (ℕ × ℕ) → Workflow × Option (ℕ × ℕ)
  | [], _, wf, pr => (wf, pr)
  | s :: rest, f, wf, pr =>
    let r := addBlocks j f dummy_flops dflops dmem s
      (blockSizes s (effBlockSize use_blockstreaming xrd_block_size s)) 0 wf pr
    addJobFiles j dummy_flops dflops dmem use_blockstreaming xrd_block_size rest (f + 1) r.1 r.2

/-- The job loop of `fill_streaming_workflow`.  After the file loop of job
`j` the source runs `endtask->addOutputFile(workflow->addFile("outfile_"+j, 0.0))`
unconditionally; when `endtask` is still null (no file produced any block)
this dereferences a null pointer, modelled as `none`. -/
def fillJobs (dummy_flops : ℚ) (use_blockstreaming : Bool) (xrd_block_size : ℚ) :
    List JobData → ℕ → Workflow → Option Workflow
  | [], _, wf => some wf
  | jd :: rest, j, wf =>
    let r := addJobFiles j dummy_flops jd.dflops jd.dmem use_blockstreaming xrd_block_size
      jd.sizes 0 wf none
    match r.2 with
    | none => none
    | some pr =>
      let rf := r.1.addFile ("outfile_" ++ toString j) 0
      fillJobs dummy_flops use_blockstreaming xrd_block_size rest (j + 1)
        (rf.1.addOutputFile pr.2 rf.2)

/-- `fill_streaming_workflow`, as a pure function of the accepted sample
values (one `JobData` per job, so `num_jobs = jobs.length` and
`infiles_per_task = (jobs.get j).sizes.length`). -/
def fill_streaming_workflow (jobs : List JobData) (use_blockstreaming : Bool)
    (xrd_block_size dummy_flops : ℚ) : Option Workflow :=
  fillJobs dummy_flops use_blockstreaming xrd_block_size jobs 0 ⟨[], [], []⟩

/-- A `Dataset` specification: name and an ordered list of files. -/
structure Dataset where
  name : String
  files : List WFile
deriving DecidableEq

/-- A `JobSpecification` as filled by `Workload::sampleJob` and
`Workload::assignFiles`. -/
structure JobSpecification where
  jobid : String
  cores : ℤ
  total_flops : ℚ
  total_mem : ℚ
  outfile : WFile
  infiles : List WFile
deriving DecidableEq

/-- The assignment loop of `Workload::assignFiles`: for job `j`,
`beg_it = all_files.begin() + j*k`; when fewer than `k` files remain from
`beg_it`, the job receives the entire remainder and the loop breaks
(subsequent jobs are untouched); otherwise the job receives the next `k`
files (`std::copy_n`).  `std::distance` is signed, hence the `ℤ` compare. -/
def assignLoop (all_files : List WFile) (k : ℕ) : List JobSpecification → ℕ → List JobSpecification
  | [], _ => []
  | js :: rest, j =>
    if ((all_files.length : ℤ) - (j * k : ℕ) < (k : ℤ)) then
      { js with infiles := js.infiles ++ all_files.drop (j * k) } :: rest
    else
      { js with infiles := js.infiles ++ (all_files.drop (j * k)).take k } ::
        assignLoop all_files k rest (j + 1)

/-- `Workload::assignFiles(dataset_specs)`: filter the datasets whose name
occurs in the workload's `infile_datasets`, throw when none matches,
concatenate the matching datasets' files, return unchanged when the job
batch is empty, else distribute with `k = num_files / num_jobs` via
`assignLoop`. -/
def assignFiles (infile_datasets : List String) (job_batch : List JobSpecification)
    (dataset_specs : List Dataset) : Except String (List JobSpecification) :=
  let matching_ds := dataset_specs.filter (fun ds => infile_datasets.contains ds.name)
  if matching_ds.isEmpty then
    Except.error "ERROR: no valid infile dataset name in workload configuration."
  else
    let all_files := (matching_ds.map Dataset.files).flatten
    let num_files := all_files.length
    let num_jobs := job_batch.length
    if num_jobs = 0 then Except.ok job_batch
    else Except.ok (assignLoop all_files (num_files / num_jobs) job_batch 0)

/-- The staging decision recorded for one input file of one task: the file is
always staged on the remote storage; it is additionally staged on every cache
storage exactly when the `cached` flag is set. -/
structure StagedFile where
  file : WFile
  remote : Bool
  cached : Bool
deriving DecidableEq

/-- The per-task staging loop of `SimpleSimulator.cpp` (`main`): for each
input file in (shuffled) order, stage it on the remote storage; if the
cumulative size of already-cached files is still `≤ hitrate * incr` —
checked before adding the current file's size — stage it on every cache and
add its size to the cumulative count. -/
def stageLoop (hitrate incr : ℚ) : List WFile → ℚ → List StagedFile
  | [], _ => []
  | f :: rest, cached_files_size =>
    if cached_files_size ≤ hitrate * incr then
      ⟨f, true, true⟩ :: stageLoop hitrate incr rest (cached_files_size + f.size)
    else
      ⟨f, true, false⟩ :: stageLoop hitrate incr rest cached_files_size

/-- Cache placement for one task: `incr_inputfile_size` is the sum of the
task's input-file sizes, the cumulative cached size starts at `0`, and the
input files (already shuffled — the shuffled order is the argument) are
walked by `stageLoop`. -/
def stageTaskFiles (hitrate : ℚ) (input_files : List WFile) : List StagedFile :=
  let incr_inputfile_size := (input_files.map WFile.size).sum
  stageLoop hitrate incr_inputfile_size input_files 0

/-- The rejection loop for real-valued resources (`while (x < 0.) x = dist(gen);`
for flops, memory, output size and input-file size): draw from the stream of
generated values until one is accepted, i.e. not `< 0`; return the accepted
value and the remaining stream, or `none` when the stream is exhausted. -/
def sampleResource : List ℚ → Option (ℚ × List ℚ)
  | [] => none
  | x :: g => if x < 0 then sampleResource g else some (x, g)

/-- The rejection loop for the core count (`while (req_cores < 1) ...`). -/
def sampleCores : List ℤ → Option (ℤ × List ℤ)
  | [] => none
  | x :: g => if x < 1 then sampleCores g else some (x, g)

/-- Draw `n` input-file sizes in order through `sampleResource`. -/
def sampleSizes : ℕ → List ℚ → Option (List ℚ × List ℚ)
  | 0, g => some ([], g)
  | n + 1, g =>
    match sampleResource g with
    | none => none
    | some r =>
      match sampleSizes n r.2 with
      | none => none
      | some r2 => some (r.1 :: r2.1, r2.2)

/-- Sample the per-job values of `fill_streaming_workflow` in source order:
the job's flops, then its memory, then the sizes of its input files. -/
def sampleJobData (infiles_per_task : ℕ) (g : List ℚ) : Option (JobData × List ℚ) :=
  match sampleResource g with
  | none => none
  | some rf =>
    match sampleResource rf.2 with
    | none => none
    | some rm =>
      match sampleSizes infiles_per_task rm.2 with
      | none => none
      | some rs => some (⟨rf.1, rm.1, rs.1⟩, rs.2)

/-- Sample the data of `num_jobs` jobs in order, threading the generator. -/
def sampleAllJobs : ℕ → ℕ → List ℚ → Option (List JobData × List ℚ)
  | 0, _, g => some ([], g)
  | n + 1, infiles_per_task, g =>
    match sampleJobData infiles_per_task g with
    | none => none
    | some r =>
      match sampleAllJobs n infiles_per_task r.2 with
      | none => none
      | some r2 => some (r.1 :: r2.1, r2.2)

/-- `fill_streaming_workflow` with the sampling made explicit: the generator
state is the stream of drawn values, consumed in the source's order (task
construction itself never consumes the generator, so the per-job draws may be
staged before the job's tasks are built without changing the consumption
order). -/
def fill_streaming_workflow_sampled (num_jobs infiles_per_task : ℕ)
    (use_blockstreaming : Bool) (xrd_block_size dummy_flops : ℚ)
    (g : List ℚ) : Option (Workflow × List ℚ) :=
  match sampleAllJobs num_jobs infiles_per_task g with
  | none => none
  | some r =>
    match fill_streaming_workflow r.1 use_blockstreaming xrd_block_size dummy_flops with
    | none => none
    | some wf => some (wf, r.2)

/-- The per-task placement pass over the (already shuffled) input-file lists
of all tasks. -/
def stageAllTasks (hitrate : ℚ) (shuffled_inputs : List (List WFile)) : List (List StagedFile) :=
  shuffled_inputs.map (stageTaskFiles hitrate)

/-! ### Helper lemmas -/

lemma stageLoop_stays_uncached (hitrate incr : ℚ) :
    ∀ (l : List WFile) (c : ℚ), ¬ c ≤ hitrate * incr →
      stageLoop hitrate incr l c = l.map (fun x => ⟨x, true, false⟩)
  | [], _, _ => by simp [stageLoop]
  | f :: rest, c, hc => by
    unfold stageLoop
    rw [if_neg hc]
    rw [stageLoop_stays_uncached hitrate incr rest c hc]
    simp

/-! ### C5 -/

/-- Sum of the block sizes produced by `blockSizes`. -/
lemma blockSizes_sum (dinsize b : ℚ) : (blockSizes dinsize b).sum = dinsize := by
  simp only [blockSizes]
  by_cases hr : dinsize - ((⌊dinsize / b⌋).toNat : ℚ) * b = 0
  · rw [if_pos hr]
    simp only [List.append_nil, List.sum_replicate, nsmul_eq_mul]
    linarith
  · rw [if_neg hr]
    simp only [List.sum_append, List.sum_replicate, nsmul_eq_mul, List.sum_cons,
      List.sum_nil, add_zero]
    ring

/-- C5: for every input file of the streaming DAG builder, the block sizes it
is chunked into (full blocks of the effective block size plus the remainder
block when the size is not an exact multiple) sum exactly to the sampled file
size, in exact real arithmetic. -/
theorem c5_block_sizes_sum (dinsize : ℚ) (use_blockstreaming : Bool) (xrd_block_size : ℚ) :
    (blockSizes dinsize (effBlockSize use_blockstreaming xrd_block_size dinsize)).sum
      = dinsize :=
  blockSizes_sum dinsize (effBlockSize use_blockstreaming xrd_block_size dinsize)

/-! ### C6: Scenario A -/

/-- C6: for one job with one input file of exactly 2,500,000 bytes,
blockstreaming on, block size 1,000,000: the file is chunked into two full
blocks and one 500,000-byte remainder block, the builder creates exactly
three Transfer (dummy) and three Compute tasks, alternating and chained by
the dual-chain edges, and the final Compute task carries the zero-size
output file `outfile_0`. -/
theorem c6_scenarioA :
    blockSizes 2500000 (effBlockSize true 1000000 2500000) = [1000000, 1000000, 500000] ∧
    (fill_streaming_workflow [⟨1200000, 2000000000, [2500000]⟩] true 1000000 (1/1000000)).map
        (fun wf => (wf.tasks.map WTask.kind, wf.edges,
                    wf.tasks.map (fun t => t.inputFiles.map WFile.size),
                    wf.tasks.getLast?.map WTask.outputFiles))
      = some ([TaskKind.transfer, TaskKind.compute, TaskKind.transfer, TaskKind.compute,
               TaskKind.transfer, TaskKind.compute],
              [(0,1),(0,2),(2,3),(1,3),(2,4),(4,5),(3,5)],
              [[1000000],[],[1000000],[],[500000],[]],
              some [⟨"outfile_0", 0⟩]) := by
  have hbs : blockSizes 2500000 (effBlockSize true 1000000 2500000) = [1000000, 1000000, 500000] := by
    norm_num [blockSizes, effBlockSize]
    simp [List.replicate]
    norm_num
  refine ⟨hbs, ?_⟩
  simp [fill_streaming_workflow, fillJobs, addJobFiles, hbs, addBlocks, addBlock,
    Workflow.addTask, Workflow.addFile, Workflow.addInputFile, Workflow.addOutputFile,
    Workflow.addControlDependency, modifyIdx]
  rfl

/-! ### C1: dataset assignment, pool of 10 files over 3 jobs -/

/-- C1 (evaluation at the claim's own scenario): with a matching dataset of
10 files and 3 jobs, `k = 10 / 3 = 3` and `assignFiles` gives **3** files to
every job, including the last one; the tenth file `f9` is assigned to no job.
The remainder branch of the loop (`distance < k`, assign the entire rest,
break) never fires because `N - j*k ≥ k` for every `j < J` when
`k = N div J`, so the claimed behaviour — job 2 receiving the 4 remaining
files — does not occur. -/
theorem c1_assignFiles_pool10_jobs3 :
    assignFiles ["ds0"]
      [⟨"job_0", 1, 1, 1, ⟨"out0", 0⟩, []⟩, ⟨"job_1", 1, 1, 1, ⟨"out1", 0⟩, []⟩,
       ⟨"job_2", 1, 1, 1, ⟨"out2", 0⟩, []⟩]
      [⟨"ds0", [⟨"f0",1⟩, ⟨"f1",1⟩, ⟨"f2",1⟩, ⟨"f3",1⟩, ⟨"f4",1⟩, ⟨"f5",1⟩, ⟨"f6",1⟩,
                ⟨"f7",1⟩, ⟨"f8",1⟩, ⟨"f9",1⟩]⟩]
      = Except.ok [⟨"job_0", 1, 1, 1, ⟨"out0", 0⟩, [⟨"f0",1⟩, ⟨"f1",1⟩, ⟨"f2",1⟩]⟩,
                   ⟨"job_1", 1, 1, 1, ⟨"out1", 0⟩, [⟨"f3",1⟩, ⟨"f4",1⟩, ⟨"f5",1⟩]⟩,
                   ⟨"job_2", 1, 1, 1, ⟨"out2", 0⟩, [⟨"f6",1⟩, ⟨"f7",1⟩, ⟨"f8",1⟩]⟩] := by
  simp [assignFiles, assignLoop]

/-! ### C2: cache placement at hitrate 0 -/

/-- C2 counterexample: at hitrate 0 the threshold check `0 ≤ 0 * incr` is
true for the first file of a task (the cumulative cached size starts at 0),
so the first file in shuffled order *does* gain Cache membership. -/
theorem c2_counterexample_first_file_cached :
    (stageTaskFiles 0 [⟨"a", 1⟩, ⟨"b", 1⟩]).map StagedFile.cached = [true, false] := by
  norm_num [stageTaskFiles, stageLoop]

/-- C2 amended: at hitrate 0 every file is staged on Remote, the *first*
file of a task's (shuffled) input list gains Cache membership, and — when
that file has positive size — no later file of the task does. -/
theorem c2_amended_hitrate_zero (f : WFile) (rest : List WFile) (hf : 0 < f.size) :
    stageTaskFiles 0 (f :: rest)
      = ⟨f, true, true⟩ :: rest.map (fun x => ⟨x, true, false⟩) := by
  unfold stageTaskFiles stageLoop
  rw [if_pos (by simp)]
  rw [zero_add]
  rw [stageLoop_stays_uncached _ _ rest f.size (by simp; linarith)]

/-- Witness for `c2_amended_hitrate_zero` at a concrete input. -/
theorem c2_amended_hitrate_zero_witness :
    stageTaskFiles 0 [⟨"a", 2⟩, ⟨"b", 3⟩]
      = [⟨⟨"a", 2⟩, true, true⟩, ⟨⟨"b", 3⟩, true, false⟩] :=
  c2_amended_hitrate_zero ⟨"a", 2⟩ [⟨"b", 3⟩] (by norm_num)

/-! ### C3: values accepted by the rejection loops -/

/-- C3 counterexample: the real-valued rejection loops resample only while
the drawn value is `< 0`, so a drawn value of exactly `0` is accepted — the
accepted flops/memory/size value is not strictly positive. -/
theorem c3_counterexample_zero_accepted :
    sampleResource [0] = some (0, []) ∧ ¬ ((0:ℚ) > 0) :=
  ⟨rfl, lt_irrefl 0⟩

/-- C3 amended: every cores value accepted by `sampleCores` is `≥ 1`, and
every value accepted by the real-valued rejection loop `sampleResource`
(flops, memory, output size, input-file size) is `≥ 0` — nonnegative, with
exactly zero accepted as well. -/
theorem c3_amended_accepted_bounds :
    (∀ (g g' : List ℤ) (v : ℤ), sampleCores g = some (v, g') → 1 ≤ v) ∧
    (∀ (g g' : List ℚ) (v : ℚ), sampleResource g = some (v, g') → 0 ≤ v) := by
  constructor
  · intro g
    induction g with
    | nil => intro g' v h; simp [sampleCores] at h
    | cons x t ih =>
      intro g' v h
      unfold sampleCores at h
      by_cases hx : x < 1
      · rw [if_pos hx] at h
        exact ih g' v h
      · rw [if_neg hx] at h
        simp only [Option.some.injEq, Prod.mk.injEq] at h
        obtain ⟨rfl, rfl⟩ := h
        omega
  · intro g
    induction g with
    | nil => intro g' v h; simp [sampleResource] at h
    | cons x t ih =>
      intro g' v h
      unfold sampleResource at h
      by_cases hx : x < 0
      · rw [if_pos hx] at h
        exact ih g' v h
      · rw [if_neg hx] at h
        simp only [Option.some.injEq, Prod.mk.injEq] at h
        obtain ⟨rfl, rfl⟩ := h
        exact not_lt.mp hx

/-- Witness for `c3_amended_accepted_bounds` at concrete inputs. -/
theorem c3_amended_accepted_bounds_witness : (1 ≤ (3:ℤ)) ∧ (0 ≤ (2:ℚ)) :=
  ⟨c3_amended_accepted_bounds.1 [3] [] 3 rfl,
   c3_amended_accepted_bounds.2 [2] [] 2 rfl⟩

/-! ### C4: the rejection loops are unbounded, no DistributionError -/

/-- C4 (evaluation of the failing scenario): for a distribution that never
produces a valid value — e.g. a one-bin histogram cores distribution, whose
discrete sampler always returns `0 < 1` — the `while` loops accept nothing
after any number `n` of draws and raise no error: the loops have no
iteration cap and no `DistributionError` exists in the code, so the
generation pass simply never terminates. -/
theorem c4_rejection_loop_unbounded (n : ℕ) :
    sampleCores (List.replicate n 0) = none ∧
    sampleResource (List.replicate n (-1)) = none := by
  induction n with
  | zero => exact ⟨rfl, rfl⟩
  | succ n ih =>
    constructor
    · rw [List.replicate_succ]
      unfold sampleCores
      rw [if_pos (by norm_num)]
      exact ih.1
    · rw [List.replicate_succ]
      unfold sampleResource
      rw [if_pos (by norm_num)]
      exact ih.2

/-! ### C8: determinism -/

/-- C8: generation is deterministic — with the generator state modelled as
the explicit stream of drawn values threaded through every sampling call,
two runs with identical stream and identical inputs produce identical
Workflows, and the placement pass over identical (shuffle-determined)
input-file orders and identical hitrate produces identical tier
placements. -/
theorem c8_determinism (n1 n2 i1 i2 : ℕ) (u1 u2 : Bool) (b1 b2 d1 d2 h1 h2 : ℚ)
    (g1 g2 : List ℚ) (sh1 sh2 : List (List WFile))
    (hn : n1 = n2) (hi : i1 = i2) (hu : u1 = u2) (hb : b1 = b2) (hd : d1 = d2)
    (hg : g1 = g2) (hh : h1 = h2) (hsh : sh1 = sh2) :
    fill_streaming_workflow_sampled n1 i1 u1 b1 d1 g1
        = fill_streaming_workflow_sampled n2 i2 u2 b2 d2 g2 ∧
      stageAllTasks h1 sh1 = stageAllTasks h2 sh2 := by
  subst hn hi hu hb hd hg hh hsh
  exact ⟨rfl, rfl⟩

/-- Witness for `c8_determinism` at a concrete input. -/
theorem c8_determinism_witness :
    fill_streaming_workflow_sampled 1 1 true 1000000 1 [5, 6, 7]
        = fill_streaming_workflow_sampled 1 1 true 1000000 1 [5, 6, 7] ∧
      stageAllTasks 0 [[⟨"a", 1⟩]] = stageAllTasks 0 [[⟨"a", 1⟩]] :=
  c8_determinism 1 1 1 1 true true 1000000 1000000 1 1 0 0 [5, 6, 7] [5, 6, 7]
    [[⟨"a", 1⟩]] [[⟨"a", 1⟩]] rfl rfl rfl rfl rfl rfl rfl rfl

/-! ### C9: assignFiles error behaviour and empty-batch no-op -/

/-- C9: `assignFiles` fails with the no-matching-dataset configuration error
exactly when no dataset spec's name appears in the configured infile dataset
names; and with an empty job batch (and at least one matching dataset) it
returns the batch unchanged — a defined no-op, not an error. -/
theorem c9_assignFiles_error_iff_and_empty_noop (infile_datasets : List String)
    (job_batch : List JobSpecification) (dataset_specs : List Dataset) :
    ((assignFiles infile_datasets job_batch dataset_specs
        = Except.error "ERROR: no valid infile dataset name in workload configuration.")
      ↔ ∀ ds ∈ dataset_specs, ds.name ∉ infile_datasets) ∧
    (job_batch = [] → (∃ ds ∈ dataset_specs, ds.name ∈ infile_datasets) →
      assignFiles infile_datasets job_batch dataset_specs = Except.ok job_batch) := by
  simp only [assignFiles]
  by_cases hm : (dataset_specs.filter (fun ds => infile_datasets.contains ds.name)).isEmpty
  · rw [if_pos hm]
    rw [List.isEmpty_iff] at hm
    rw [List.filter_eq_nil_iff] at hm
    constructor
    · constructor
      · intro _ ds hds
        have hc := hm ds hds
        simp at hc
        exact hc
      · intro _; rfl
    · intro _ hex
      obtain ⟨ds, hds, hmem⟩ := hex
      have hc := hm ds hds
      simp at hc
      exact absurd hmem hc
  · rw [if_neg hm]
    constructor
    · constructor
      · intro h
        by_cases hj : job_batch.length = 0
        · rw [if_pos hj] at h; exact absurd h (by simp)
        · rw [if_neg hj] at h; exact absurd h (by simp)
      · intro hall
        exfalso
        rw [List.isEmpty_iff] at hm
        rw [List.filter_eq_nil_iff] at hm
        push_neg at hm
        obtain ⟨ds, hds, hcon⟩ := hm
        simp at hcon
        exact absurd hcon (hall ds hds)
    · intro hb _
      subst hb
      simp

/-- Witness for `c9_assignFiles_error_iff_and_empty_noop` at a concrete
input: one matching dataset and an empty job batch give the no-op. -/
theorem c9_assignFiles_error_iff_and_empty_noop_witness :
    assignFiles ["d"] [] [⟨"d", [⟨"x", 1⟩]⟩] = Except.ok [] :=
  (c9_assignFiles_error_iff_and_empty_noop ["d"] [] [⟨"d", [⟨"x", 1⟩]⟩]).2 rfl
    ⟨⟨"d", [⟨"x", 1⟩]⟩, by simp, by simp⟩

/-! ### Infrastructure for the structural characterization of the builder -/

/-- Element of a list at an index, as an `Option`. -/
def nthOpt : List α → ℕ → Option α
  | [], _ => none
  | a :: _, 0 => some a
  | _ :: l, n + 1 => nthOpt l n

/-- Element of a list at an index, with a default. -/
def nthD (l : List α) (i : ℕ) (d : α) : α := (nthOpt l i).getD d

/-- The predecessor list of task `t`: the sources of all control edges whose
target is `t`, in edge order. -/
def predsOf : List (ℕ × ℕ) → ℕ → List ℕ
  | [], _ => []
  | e :: rest, t => if e.2 = t then e.1 :: predsOf rest t else predsOf rest t

/-- Kind of the task with creation index `i`. -/
def nthKind (wf : Workflow) (i : ℕ) : Option TaskKind :=
  (nthOpt wf.tasks i).map WTask.kind

/-- Control edges created for one block whose dummy task has index `d` (and
compute task `d + 1`), given the parent pair `pr`. -/
def blockEdges (d : ℕ) (pr : Option (ℕ × ℕ)) : List (ℕ × ℕ) :=
  (match pr with | some p => [(p.1, d)] | none => []) ++ [(d, d + 1)] ++
    (match pr with | some p => [(p.2, d + 1)] | none => [])

/-- Control edges created for a file of `m` blocks whose first dummy task has
index `start`, given the parent pair `pr`. -/
def chainEdges (start : ℕ) (pr : Option (ℕ × ℕ)) : ℕ → List (ℕ × ℕ)
  | 0 => []
  | m + 1 => blockEdges start pr ++ chainEdges (start + 2) (some (start, start + 1)) m

/-- The (`enddummytask`, `endtask`) pair after a file of `m` blocks starting
at index `start`, given the incoming pair `pr`. -/
def lastPair (start : ℕ) (pr : Option (ℕ × ℕ)) (m : ℕ) : Option (ℕ × ℕ) :=
  match m with
  | 0 => pr
  | m + 1 => some (start + 2 * m, start + 2 * m + 1)

/-- Control edges of a job's files with block counts `ms`, starting at task
index `start` with parent pair `pr`. -/
def fileEdgeList (start : ℕ) (pr : Option (ℕ × ℕ)) : List ℕ → List (ℕ × ℕ)
  | [] => []
  | m :: rest => chainEdges start pr m ++ fileEdgeList (start + 2 * m) (lastPair start pr m) rest

/-- The (`enddummytask`, `endtask`) pair after a job's files with block
counts `ms`. -/
def filesLastPair (start : ℕ) (pr : Option (ℕ × ℕ)) : List ℕ → Option (ℕ × ℕ)
  | [] => pr
  | m :: rest => filesLastPair (start + 2 * m) (lastPair start pr m) rest

/-- Control edges of all jobs, given each job's per-file block counts. -/
def jobsEdgeList (start : ℕ) : List (List ℕ) → List (ℕ × ℕ)
  | [] => []
  | ms :: rest => fileEdgeList start none ms ++ jobsEdgeList (start + 2 * ms.sum) rest

/-- Task kinds of `n` consecutive blocks: each block contributes its Transfer
task then its Compute task. -/
def altKinds : ℕ → List TaskKind
  | 0 => []
  | n + 1 => TaskKind.transfer :: TaskKind.compute :: altKinds n

/-- Per-file block counts of one job. -/
def jobCounts (use_blockstreaming : Bool) (xrd_block_size : ℚ) (jd : JobData) : List ℕ :=
  jd.sizes.map (fileBlockCount use_blockstreaming xrd_block_size)

/-- Per-file block counts of all jobs. -/
def allCounts (use_blockstreaming : Bool) (xrd_block_size : ℚ) (jobs : List JobData) :
    List (List ℕ) :=
  jobs.map (jobCounts use_blockstreaming xrd_block_size)

/-- Creation index of the first (dummy) task of file `f` of job `j`, for the
given per-job per-file block counts. -/
def fileStartIdx (counts : List (List ℕ)) (j f : ℕ) : ℕ :=
  2 * (((counts.take j).map List.sum).sum + ((nthD counts j []).take f).sum)

/-- Creation index of the Transfer (dummy) task of block `b` of file `f` of
job `j`. -/
def transferIdx (counts : List (List ℕ)) (j f b : ℕ) : ℕ :=
  fileStartIdx counts j f + 2 * b

/-- Creation index of the Compute task of block `b` of file `f` of job `j`. -/
def computeIdx (counts : List (List ℕ)) (j f b : ℕ) : ℕ :=
  fileStartIdx counts j f + 2 * b + 1

/-- The dummy (Transfer) task record created for block `b` of file `f` of
job `j`, carrying its input block. -/
def dummyWTask (j f b : ℕ) (dummy_flops blocksize : ℚ) : WTask :=
  ⟨"dummytask_" ++ toString j ++ "_file_" ++ toString f ++ "_block_" ++ toString b,
   TaskKind.transfer, dummy_flops, 1, 1, dummy_flops,
   [⟨"infile_" ++ toString j ++ "_file_" ++ toString f ++ "_block_" ++ toString b, blocksize⟩],
   []⟩

/-- The Compute task record created for block `b` of file `f` of job `j`. -/
def computeWTask (j f b : ℕ) (blockflops dmem : ℚ) : WTask :=
  ⟨"task_" ++ toString j ++ "_file_" ++ toString f ++ "_block_" ++ toString b,
   TaskKind.compute, blockflops, 1, 1, dmem, [], []⟩

/-- Task records created by the block loop for the given block sizes. -/
def blockTasksList (j f : ℕ) (dummy_flops dflops dmem dinsize : ℚ) :
    List ℚ → ℕ → List WTask
  | [], _ => []
  | s :: rest, b =>
    dummyWTask j f b dummy_flops s :: computeWTask j f b (dflops * s / dinsize) dmem ::
      blockTasksList j f dummy_flops dflops dmem dinsize rest (b + 1)

/-- Input-block files created by the block loop for the given block sizes. -/
def blockFilesList (j f : ℕ) : List ℚ → ℕ → List WFile
  | [], _ => []
  | s :: rest, b =>
    (⟨"infile_" ++ toString j ++ "_file_" ++ toString f ++ "_block_" ++ toString b, s⟩ : WFile)
      :: blockFilesList j f rest (b + 1)

/-- Task records created by the file loop of one job. -/
def jobTasksList (j : ℕ) (dummy_flops dflops dmem : ℚ) (use_blockstreaming : Bool)
    (xrd_block_size : ℚ) : List ℚ → ℕ → List WTask
  | [], _ => []
  | s :: rest, f =>
    blockTasksList j f dummy_flops dflops dmem s
        (blockSizes s (effBlockSize use_blockstreaming xrd_block_size s)) 0 ++
      jobTasksList j dummy_flops dflops dmem use_blockstreaming xrd_block_size rest (f + 1)

/-- Input-block files created by the file loop of one job. -/
def jobFilesList (j : ℕ) (use_blockstreaming : Bool) (xrd_block_size : ℚ) :
    List ℚ → ℕ → List WFile
  | [], _ => []
  | s :: rest, f =>
    blockFilesList j f (blockSizes s (effBlockSize use_blockstreaming xrd_block_size s)) 0 ++
      jobFilesList j use_blockstreaming xrd_block_size rest (f + 1)

lemma modifyIdx_append_length (l : List α) (a : α) (g : α → α) :
    modifyIdx (l ++ [a]) l.length g = l ++ [g a] := by
  induction l with
  | nil => rfl
  | cons x t ih => simp [modifyIdx, ih]

lemma modifyIdx_length : ∀ (l : List α) (i : ℕ) (g : α → α), (modifyIdx l i g).length = l.length
  | [], _, _ => rfl
  | _ :: t, 0, g => by simp [modifyIdx]
  | a :: t, i + 1, g => by simp [modifyIdx, modifyIdx_length t i g]

lemma modifyIdx_map (h : α → β) (g : α → α) (hp : ∀ a, h (g a) = h a) :
    ∀ (l : List α) (i : ℕ), (modifyIdx l i g).map h = l.map h
  | [], _ => rfl
  | a :: t, 0 => by simp [modifyIdx, hp]
  | a :: t, i + 1 => by simp [modifyIdx, modifyIdx_map h g hp t i]

lemma predsOf_append (a b : List (ℕ × ℕ)) (t : ℕ) :
    predsOf (a ++ b) t = predsOf a t ++ predsOf b t := by
  induction a with
  | nil => simp [predsOf]
  | cons e rest ih =>
    simp only [List.cons_append, predsOf]
    split
    · simp [ih]
    · simp [ih]

lemma predsOf_nil_of_ne (t : ℕ) : ∀ (l : List (ℕ × ℕ)), (∀ e ∈ l, e.2 ≠ t) → predsOf l t = []
  | [], _ => rfl
  | e :: rest, h => by
    simp only [predsOf]
    rw [if_neg (h e (by simp))]
    exact predsOf_nil_of_ne t rest (fun x hx => h x (by simp [hx]))

lemma nthOpt_append_left : ∀ (l r : List α) (i : ℕ), i < l.length →
    nthOpt (l ++ r) i = nthOpt l i
  | [], _, _, h => by simp at h
  | a :: t, r, 0, _ => rfl
  | a :: t, r, i + 1, h => by
    simp only [List.cons_append, nthOpt]
    exact nthOpt_append_left t r i (by simp at h; omega)

lemma nthOpt_append_right : ∀ (l r : List α) (i : ℕ), nthOpt (l ++ r) (l.length + i) = nthOpt r i
  | [], _, _ => by simp [nthOpt]
  | a :: t, r, i => by
    simp only [List.cons_append, List.length_cons, nthOpt]
    have h : t.length + 1 + i = (t.length + i) + 1 := by omega
    rw [h]
    exact nthOpt_append_right t r i

lemma nthOpt_map (h : α → β) : ∀ (l : List α) (i : ℕ), nthOpt (l.map h) i = (nthOpt l i).map h
  | [], _ => rfl
  | a :: t, 0 => rfl
  | a :: t, i + 1 => by simp only [List.map_cons, nthOpt]; exact nthOpt_map h t i

lemma altKinds_append (a b : ℕ) : altKinds (a + b) = altKinds a ++ altKinds b := by
  induction a with
  | zero => simp [altKinds]
  | succ a ih =>
    have h : a + 1 + b = (a + b) + 1 := by omega
    rw [h]
    simp [altKinds, ih]

lemma altKinds_nthOpt : ∀ (n i : ℕ), nthOpt (altKinds n) i =
    if i < 2 * n then some (if i % 2 = 0 then TaskKind.transfer else TaskKind.compute) else none
  | 0, i => by simp [altKinds, nthOpt]
  | n + 1, 0 => by simp [altKinds, nthOpt]
  | n + 1, 1 => by
    have h1 : 1 < 2 * (n + 1) := by omega
    simp [altKinds, nthOpt, h1]
  | n + 1, i + 2 => by
    have h2 : (i + 2) % 2 = i % 2 := Nat.add_mod_right i 2
    simp only [altKinds, nthOpt]
    rw [altKinds_nthOpt n i, h2]
    by_cases hi : i < 2 * n
    · rw [if_pos hi, if_pos (show i + 2 < 2 * (n + 1) by omega)]
    · rw [if_neg hi, if_neg (show ¬ i + 2 < 2 * (n + 1) by omega)]

lemma lastPair_shift (L : ℕ) (pr : Option (ℕ × ℕ)) (m : ℕ) :
    lastPair (L + 2) (some (L, L + 1)) m = lastPair L pr (m + 1) := by
  cases m with
  | zero => simp [lastPair]
  | succ m =>
    simp only [lastPair, Option.some.injEq, Prod.mk.injEq]
    omega

lemma addBlock_spec (j f b : ℕ) (DF dfl dm dsz s : ℚ) (wf : Workflow) (pr : Option (ℕ × ℕ)) :
    addBlock j f b DF dfl dm dsz s wf pr =
      (⟨wf.tasks ++ [dummyWTask j f b DF s, computeWTask j f b (dfl * s / dsz) dm],
        wf.files ++
          [⟨"infile_" ++ toString j ++ "_file_" ++ toString f ++ "_block_" ++ toString b, s⟩],
        wf.edges ++ blockEdges wf.tasks.length pr⟩,
       wf.tasks.length, wf.tasks.length + 1) := by
  cases pr with
  | none =>
    simp [addBlock, Workflow.addTask, Workflow.addFile, Workflow.addInputFile,
      Workflow.addControlDependency, blockEdges, dummyWTask, computeWTask,
      modifyIdx_append_length]
  | some p =>
    simp [addBlock, Workflow.addTask, Workflow.addFile, Workflow.addInputFile,
      Workflow.addControlDependency, blockEdges, dummyWTask, computeWTask,
      modifyIdx_append_length]

lemma addBlocks_spec (j f : ℕ) (DF dfl dm dsz : ℚ) :
    ∀ (blocks : List ℚ) (b : ℕ) (wf : Workflow) (pr : Option (ℕ × ℕ)),
    addBlocks j f DF dfl dm dsz blocks b wf pr =
      (⟨wf.tasks ++ blockTasksList j f DF dfl dm dsz blocks b,
        wf.files ++ blockFilesList j f blocks b,
        wf.edges ++ chainEdges wf.tasks.length pr blocks.length⟩,
       lastPair wf.tasks.length pr blocks.length)
  | [], b, wf, pr => by
    simp [addBlocks, blockTasksList, blockFilesList, chainEdges, lastPair]
  | s :: rest, b, wf, pr => by
    simp only [addBlocks]
    rw [addBlock_spec]
    rw [addBlocks_spec j f DF dfl dm dsz rest (b + 1) _ _]
    simp only [List.length_cons]
    rw [← lastPair_shift wf.tasks.length pr rest.length]
    simp [blockTasksList, blockFilesList, chainEdges, List.append_assoc]

lemma blockTasksList_length (j f : ℕ) (DF dfl dm dsz : ℚ) :
    ∀ (blocks : List ℚ) (b : ℕ),
    (blockTasksList j f DF dfl dm dsz blocks b).length = 2 * blocks.length
  | [], _ => rfl
  | s :: rest, b => by
    simp [blockTasksList, blockTasksList_length j f DF dfl dm dsz rest (b + 1)]
    omega

lemma blockTasksList_kinds (j f : ℕ) (DF dfl dm dsz : ℚ) :
    ∀ (blocks : List ℚ) (b : ℕ),
    (blockTasksList j f DF dfl dm dsz blocks b).map WTask.kind = altKinds blocks.length
  | [], _ => rfl
  | s :: rest, b => by
    simp [blockTasksList, altKinds, dummyWTask, computeWTask,
      blockTasksList_kinds j f DF dfl dm dsz rest (b + 1)]

lemma jobTasksList_length (j : ℕ) (DF dfl dm : ℚ) (u : Bool) (bs : ℚ) :
    ∀ (sizes : List ℚ) (f : ℕ),
    (jobTasksList j DF dfl dm u bs sizes f).length
      = 2 * ((sizes.map (fileBlockCount u bs)).sum)
  | [], _ => rfl
  | s :: rest, f => by
    simp [jobTasksList, blockTasksList_length, jobTasksList_length j DF dfl dm u bs rest (f + 1),
      fileBlockCount]
    omega

lemma jobTasksList_kinds (j : ℕ) (DF dfl dm : ℚ) (u : Bool) (bs : ℚ) :
    ∀ (sizes : List ℚ) (f : ℕ),
    (jobTasksList j DF dfl dm u bs sizes f).map WTask.kind
      = altKinds ((sizes.map (fileBlockCount u bs)).sum)
  | [], _ => rfl
  | s :: rest, f => by
    simp [jobTasksList, blockTasksList_kinds, jobTasksList_kinds j DF dfl dm u bs rest (f + 1),
      altKinds_append, fileBlockCount]

lemma addJobFiles_spec (j : ℕ) (DF dfl dm : ℚ) (u : Bool) (bs : ℚ) :
    ∀ (sizes : List ℚ) (f : ℕ) (wf : Workflow) (pr : Option (ℕ × ℕ)),
    addJobFiles j DF dfl dm u bs sizes f wf pr =
      (⟨wf.tasks ++ jobTasksList j DF dfl dm u bs sizes f,
        wf.files ++ jobFilesList j u bs sizes f,
        wf.edges ++ fileEdgeList wf.tasks.length pr (sizes.map (fileBlockCount u bs))⟩,
       filesLastPair wf.tasks.length pr (sizes.map (fileBlockCount u bs)))
  | [], f, wf, pr => by
    simp [addJobFiles, jobTasksList, jobFilesList, fileEdgeList, filesLastPair]
  | s :: rest, f, wf, pr => by
    simp only [addJobFiles]
    rw [addBlocks_spec]
    rw [addJobFiles_spec j DF dfl dm u bs rest (f + 1) _ _]
    simp [jobTasksList, jobFilesList, fileEdgeList, filesLastPair, blockTasksList_length,
      fileBlockCount, List.append_assoc]

lemma fillJobs_spec (DF : ℚ) (u : Bool) (bs : ℚ) :
    ∀ (jobs : List JobData) (j : ℕ) (wf : Workflow) (w : Workflow),
    fillJobs DF u bs jobs j wf = some w →
    w.edges = wf.edges ++ jobsEdgeList wf.tasks.length (allCounts u bs jobs) ∧
    w.tasks.map WTask.kind
      = wf.tasks.map WTask.kind ++ altKinds (((allCounts u bs jobs).map List.sum).sum)
  | [], j, wf, w, h => by
    simp only [fillJobs, Option.some.injEq] at h
    subst h
    simp [allCounts, jobsEdgeList, altKinds]
  | jd :: rest, j, wf, w, h => by
    simp only [fillJobs] at h
    rw [addJobFiles_spec] at h
    cases hpr : filesLastPair wf.tasks.length none (jd.sizes.map (fileBlockCount u bs)) with
    | none => rw [hpr] at h; exact absurd h (by simp)
    | some pr =>
      rw [hpr] at h
      simp only [Workflow.addFile, Workflow.addOutputFile] at h
      have ih := fillJobs_spec DF u bs rest (j + 1) _ w h
      rw [modifyIdx_length] at ih
      rw [modifyIdx_map WTask.kind
        (fun t => { t with outputFiles := t.outputFiles ++ [⟨"outfile_" ++ toString j, 0⟩] })
        (fun a => rfl)] at ih
      simp only [List.length_append, List.map_append,
        jobTasksList_length, jobTasksList_kinds] at ih
      obtain ⟨he, hk⟩ := ih
      constructor
      · rw [he]
        simp [allCounts, jobsEdgeList, jobCounts, List.append_assoc]
      · rw [hk]
        simp [allCounts, jobCounts, altKinds_append, List.append_assoc]

lemma lastPair_isSome (start : ℕ) (p : ℕ × ℕ) (m : ℕ) :
    ∃ q, lastPair start (some p) m = some q := by
  cases m with
  | zero => exact ⟨p, rfl⟩
  | succ m => exact ⟨_, rfl⟩

lemma filesLastPair_some : ∀ (ms : List ℕ) (start : ℕ) (p : ℕ × ℕ),
    ∃ q, filesLastPair start (some p) ms = some q
  | [], _, p => ⟨p, rfl⟩
  | m :: rest, start, p => by
    simp only [filesLastPair]
    obtain ⟨q, hq⟩ := lastPair_isSome start p m
    rw [hq]
    exact filesLastPair_some rest _ q

lemma filesLastPair_pos : ∀ (ms : List ℕ) (start : ℕ), (∃ m ∈ ms, 1 ≤ m) →
    ∃ q, filesLastPair start none ms = some q
  | [], _, h => absurd h (by simp)
  | m :: rest, start, h => by
    simp only [filesLastPair]
    cases m with
    | zero =>
      simp only [lastPair]
      apply filesLastPair_pos rest
      obtain ⟨m', hm', h1⟩ := h
      rcases List.mem_cons.mp hm' with h0 | hr
      · omega
      · exact ⟨m', hr, h1⟩
    | succ m' =>
      simp only [lastPair]
      exact filesLastPair_some rest _ _

lemma fillJobs_isSome (DF : ℚ) (u : Bool) (bs : ℚ) :
    ∀ (jobs : List JobData) (j : ℕ) (wf : Workflow),
    (∀ jd ∈ jobs, ∃ s ∈ jd.sizes, 1 ≤ fileBlockCount u bs s) →
    ∃ w, fillJobs DF u bs jobs j wf = some w
  | [], _, wf, _ => ⟨wf, rfl⟩
  | jd :: rest, j, wf, h => by
    simp only [fillJobs]
    rw [addJobFiles_spec]
    have hjd := h jd (by simp)
    have hms : ∃ m ∈ jd.sizes.map (fileBlockCount u bs), 1 ≤ m := by
      obtain ⟨s, hs, h1⟩ := hjd
      exact ⟨_, List.mem_map_of_mem _ hs, h1⟩
    obtain ⟨q, hq⟩ := filesLastPair_pos _ _ hms
    rw [hq]
    exact fillJobs_isSome DF u bs rest (j + 1) _ (fun x hx => h x (by simp [hx]))

/-- C10: the unconditional `endtask->addOutputFile(...)` at the end of each
job dereferences the job's final Compute task pointer.  When
`infiles_per_task = 0` (every job's size list empty) the pointer is still
null when the dereference is reached, so the builder fails (modelled as
`none`); under the precondition that every job has at least one file
producing at least one block, the dereference is well-defined and the
builder succeeds. -/
theorem c10_output_attach_precondition (jobs : List JobData) (u : Bool) (bs DF : ℚ) :
    (jobs ≠ [] → (∀ jd ∈ jobs, jd.sizes = []) →
      fill_streaming_workflow jobs u bs DF = none) ∧
    ((∀ jd ∈ jobs, ∃ s ∈ jd.sizes, 1 ≤ fileBlockCount u bs s) →
      ∃ w, fill_streaming_workflow jobs u bs DF = some w) := by
  constructor
  · intro hne hall
    cases jobs with
    | nil => exact absurd rfl hne
    | cons jd rest =>
      have hsz : jd.sizes = [] := hall jd (by simp)
      simp only [fill_streaming_workflow, fillJobs]
      rw [addJobFiles_spec]
      rw [hsz]
      simp [filesLastPair]
  · intro h
    exact fillJobs_isSome DF u bs jobs 0 _ h

/-- Witness for `c10_output_attach_precondition` at concrete inputs: one job
with no input file fails; one job with a single one-block file succeeds. -/
theorem c10_output_attach_precondition_witness :
    fill_streaming_workflow [⟨1, 1, []⟩] true 2 0 = none ∧
    ∃ w, fill_streaming_workflow [⟨1, 1, [1]⟩] true 2 0 = some w :=
  ⟨(c10_output_attach_precondition [⟨1, 1, []⟩] true 2 0).1 (by simp) (by simp),
   (c10_output_attach_precondition [⟨1, 1, [1]⟩] true 2 0).2 (by
      intro jd hjd
      simp only [List.mem_singleton] at hjd
      subst hjd
      refine ⟨1, by simp, ?_⟩
      norm_num [fileBlockCount, blockSizes, effBlockSize])⟩

lemma blockEdges_targets (d : ℕ) (pr : Option (ℕ × ℕ)) :
    ∀ e ∈ blockEdges d pr, e.2 = d ∨ e.2 = d + 1 := by
  cases pr with
  | none => intro e he; simp [blockEdges] at he; subst he; simp
  | some p =>
    intro e he
    simp [blockEdges] at he
    rcases he with h | h | h <;> subst h <;> simp

lemma chainEdges_targets : ∀ (m start : ℕ) (pr : Option (ℕ × ℕ)),
    ∀ e ∈ chainEdges start pr m, start ≤ e.2 ∧ e.2 < start + 2 * m
  | 0, start, pr => by simp [chainEdges]
  | m + 1, start, pr => by
    intro e he
    simp only [chainEdges, List.mem_append] at he
    rcases he with h | h
    · rcases blockEdges_targets start pr e h with h2 | h2 <;> omega
    · have h2 := chainEdges_targets m (start + 2) (some (start, start + 1)) e h
      omega

lemma fileEdgeList_targets : ∀ (ms : List ℕ) (start : ℕ) (pr : Option (ℕ × ℕ)),
    ∀ e ∈ fileEdgeList start pr ms, start ≤ e.2 ∧ e.2 < start + 2 * ms.sum
  | [], start, pr => by simp [fileEdgeList]
  | m :: rest, start, pr => by
    intro e he
    simp only [fileEdgeList, List.mem_append] at he
    rcases he with h | h
    · have h2 := chainEdges_targets m start pr e h
      simp only [List.sum_cons]
      omega
    · have h2 := fileEdgeList_targets rest (start + 2 * m) (lastPair start pr m) e h
      simp only [List.sum_cons]
      omega

lemma jobsEdgeList_targets : ∀ (counts : List (List ℕ)) (start : ℕ),
    ∀ e ∈ jobsEdgeList start counts, start ≤ e.2 ∧ e.2 < start + 2 * ((counts.map List.sum).sum)
  | [], start => by simp [jobsEdgeList]
  | ms :: rest, start => by
    intro e he
    simp only [jobsEdgeList, List.mem_append] at he
    rcases he with h | h
    · have h2 := fileEdgeList_targets ms start none e h
      simp only [List.map_cons, List.sum_cons]
      omega
    · have h2 := jobsEdgeList_targets rest (start + 2 * ms.sum) e h
      simp only [List.map_cons, List.sum_cons]
      omega

lemma blockEdges_lt (d : ℕ) (pr : Option (ℕ × ℕ))
    (hp : ∀ p, pr = some p → p.1 < d ∧ p.2 < d) :
    ∀ e ∈ blockEdges d pr, e.1 < e.2 := by
  cases pr with
  | none => intro e he; simp [blockEdges] at he; subst he; simp
  | some p =>
    intro e he
    have hpd := hp p rfl
    simp [blockEdges] at he
    rcases he with h | h | h <;> subst h <;> simp <;> omega

lemma lastPair_bound (start : ℕ) (pr : Option (ℕ × ℕ)) (m : ℕ)
    (hp : ∀ p, pr = some p → p.1 < start ∧ p.2 < start) :
    ∀ p, lastPair start pr m = some p → p.1 < start + 2 * m ∧ p.2 < start + 2 * m := by
  cases m with
  | zero =>
    intro p h
    have h2 := hp p h
    omega
  | succ m =>
    intro p h
    simp only [lastPair, Option.some.injEq] at h
    subst h
    simp
    omega

lemma chainEdges_lt : ∀ (m start : ℕ) (pr : Option (ℕ × ℕ)),
    (∀ p, pr = some p → p.1 < start ∧ p.2 < start) →
    ∀ e ∈ chainEdges start pr m, e.1 < e.2
  | 0, start, pr, _ => by simp [chainEdges]
  | m + 1, start, pr, hp => by
    intro e he
    simp only [chainEdges, List.mem_append] at he
    rcases he with h | h
    · exact blockEdges_lt start pr hp e h
    · refine chainEdges_lt m (start + 2) (some (start, start + 1)) ?_ e h
      intro p hpp
      injection hpp with h2
      subst h2
      dsimp only
      omega

lemma fileEdgeList_lt : ∀ (ms : List ℕ) (start : ℕ) (pr : Option (ℕ × ℕ)),
    (∀ p, pr = some p → p.1 < start ∧ p.2 < start) →
    ∀ e ∈ fileEdgeList start pr ms, e.1 < e.2
  | [], start, pr, _ => by simp [fileEdgeList]
  | m :: rest, start, pr, hp => by
    intro e he
    simp only [fileEdgeList, List.mem_append] at he
    rcases he with h | h
    · exact chainEdges_lt m start pr hp e h
    · refine fileEdgeList_lt rest (start + 2 * m) (lastPair start pr m) ?_ e h
      intro p hpp
      exact lastPair_bound start pr m hp p hpp

lemma jobsEdgeList_lt : ∀ (counts : List (List ℕ)) (start : ℕ),
    ∀ e ∈ jobsEdgeList start counts, e.1 < e.2
  | [], start => by simp [jobsEdgeList]
  | ms :: rest, start => by
    intro e he
    simp only [jobsEdgeList, List.mem_append] at he
    rcases he with h | h
    · exact fileEdgeList_lt ms start none (by intro p hpp; simp at hpp) e h
    · exact jobsEdgeList_lt rest (start + 2 * ms.sum) e h

lemma chainEdges_preds : ∀ (m i start : ℕ) (pr : Option (ℕ × ℕ)), i < m →
    predsOf (chainEdges start pr m) (start + 2 * i + 1) =
      (start + 2 * i) ::
        (if i = 0 then (pr.map Prod.snd).toList else [start + 2 * i - 1])
  | 0, i, start, pr, h => absurd h (Nat.not_lt_zero i)
  | m + 1, 0, start, pr, _ => by
    simp only [chainEdges, predsOf_append]
    have h1 : predsOf (blockEdges start pr) (start + 2 * 0 + 1) =
        (start + 2 * 0) :: (pr.map Prod.snd).toList := by
      cases pr with
      | none => simp [blockEdges, predsOf]
      | some p => simp [blockEdges, predsOf]
    have h2 : predsOf (chainEdges (start + 2) (some (start, start + 1)) m)
        (start + 2 * 0 + 1) = [] := by
      apply predsOf_nil_of_ne
      intro e he
      have h3 := chainEdges_targets m (start + 2) (some (start, start + 1)) e he
      omega
    rw [h1, h2]
    simp
  | m + 1, i + 1, start, pr, h => by
    simp only [chainEdges, predsOf_append]
    have h1 : predsOf (blockEdges start pr) (start + 2 * (i + 1) + 1) = [] := by
      apply predsOf_nil_of_ne
      intro e he
      rcases blockEdges_targets start pr e he with h2 | h2 <;> omega
    have h3 : start + 2 * (i + 1) + 1 = (start + 2) + 2 * i + 1 := by omega
    rw [h1, h3, chainEdges_preds m i (start + 2) (some (start, start + 1)) (by omega)]
    simp only [List.nil_append]
    rw [if_neg (Nat.succ_ne_zero i)]
    by_cases hi : i = 0
    · subst hi
      have h4 : start + 2 + 2 * 0 = start + 2 * (0 + 1) := by omega
      have h5 : start + 2 * (0 + 1) - 1 = start + 1 := by omega
      rw [if_pos rfl, h4, h5]
      simp
    · rw [if_neg hi]
      have h4 : start + 2 + 2 * i = start + 2 * (i + 1) := by omega
      rw [h4]

lemma fileEdgeList_preds : ∀ (ms : List ℕ) (f i start : ℕ) (pr : Option (ℕ × ℕ)),
    f < ms.length → i < nthD ms f 0 →
    predsOf (fileEdgeList start pr ms) (start + 2 * (ms.take f).sum + 2 * i + 1) =
      (start + 2 * (ms.take f).sum + 2 * i) ::
        (if i = 0 then ((filesLastPair start pr (ms.take f)).map Prod.snd).toList
         else [start + 2 * (ms.take f).sum + 2 * i - 1])
  | [], f, i, start, pr, hf, hi => absurd hf (by simp)
  | m :: rest, 0, i, start, pr, hf, hi => by
    have hi' : i < m := by simpa [nthD, nthOpt] using hi
    simp only [List.take_zero, List.sum_nil, Nat.mul_zero, Nat.add_zero, filesLastPair,
      fileEdgeList, predsOf_append]
    rw [chainEdges_preds m i start pr hi']
    have h2 : predsOf (fileEdgeList (start + 2 * m) (lastPair start pr m) rest)
        (start + 2 * i + 1) = [] := by
      apply predsOf_nil_of_ne
      intro e he
      have h3 := fileEdgeList_targets rest (start + 2 * m) (lastPair start pr m) e he
      omega
    rw [h2]
    simp
  | m :: rest, f + 1, i, start, pr, hf, hi => by
    have hf' : f < rest.length := by simpa using hf
    have hi' : i < nthD rest f 0 := by simpa [nthD, nthOpt] using hi
    have hsum : ((m :: rest).take (f + 1)).sum = m + (rest.take f).sum := by
      simp [List.take_succ_cons]
    rw [hsum]
    simp only [fileEdgeList, predsOf_append]
    have h1 : predsOf (chainEdges start pr m)
        (start + 2 * (m + (rest.take f).sum) + 2 * i + 1) = [] := by
      apply predsOf_nil_of_ne
      intro e he
      have h3 := chainEdges_targets m start pr e he
      omega
    rw [h1]
    have h3 : start + 2 * (m + (rest.take f).sum) + 2 * i + 1
        = (start + 2 * m) + 2 * (rest.take f).sum + 2 * i + 1 := by omega
    rw [h3]
    rw [fileEdgeList_preds rest f i (start + 2 * m) (lastPair start pr m) hf' hi']
    simp only [List.nil_append, List.take_succ_cons, filesLastPair]
    have h4 : start + 2 * m + 2 * (rest.take f).sum + 2 * i
        = start + 2 * (m + (rest.take f).sum) + 2 * i := by omega
    rw [h4]


lemma sum_take_succ : ∀ (l : List ℕ) (k : ℕ), k < l.length →
    (l.take (k + 1)).sum = (l.take k).sum + nthD l k 0
  | [], k, h => absurd h (by simp)
  | a :: rest, 0, _ => by simp [nthD, nthOpt]
  | a :: rest, k + 1, h => by
    have h2 := sum_take_succ rest k (by simpa using h)
    simp only [List.take_succ_cons, List.sum_cons, nthD, nthOpt] at h2 ⊢
    omega

lemma take_sum_add_lt : ∀ (l : List ℕ) (k r : ℕ), k < l.length → r < nthD l k 0 →
    (l.take k).sum + r < l.sum
  | [], k, r, h, _ => absurd h (by simp)
  | a :: rest, 0, r, _, hr => by
    have hra : r < a := by simpa [nthD, nthOpt] using hr
    simp only [List.take_zero, List.sum_nil, List.sum_cons]
    have h2 : (0:ℕ) ≤ rest.sum := Nat.zero_le _
    omega
  | a :: rest, k + 1, r, h, hr => by
    have h2 := take_sum_add_lt rest k r (by simpa using h) (by simpa [nthD, nthOpt] using hr)
    simp only [List.take_succ_cons, List.sum_cons]
    omega

lemma jobsEdgeList_preds : ∀ (counts : List (List ℕ)) (jdx f i start : ℕ),
    jdx < counts.length → f < (nthD counts jdx []).length →
    i < nthD (nthD counts jdx []) f 0 →
    predsOf (jobsEdgeList start counts)
        (start + 2 * ((counts.take jdx).map List.sum).sum
          + 2 * ((nthD counts jdx []).take f).sum + 2 * i + 1) =
      (start + 2 * ((counts.take jdx).map List.sum).sum
          + 2 * ((nthD counts jdx []).take f).sum + 2 * i) ::
        (if i = 0 then
           ((filesLastPair (start + 2 * ((counts.take jdx).map List.sum).sum) none
               ((nthD counts jdx []).take f)).map Prod.snd).toList
         else [start + 2 * ((counts.take jdx).map List.sum).sum
                 + 2 * ((nthD counts jdx []).take f).sum + 2 * i - 1])
  | [], jdx, f, i, start, hj, hf, hi => absurd hj (by simp)
  | ms :: rest, 0, f, i, start, hj, hf, hi => by
    have hf' : f < ms.length := by simpa [nthD, nthOpt] using hf
    have hi' : i < nthD ms f 0 := by
      have : nthD (ms :: rest) 0 [] = ms := rfl
      rw [this] at hi
      exact hi
    have hms : nthD (ms :: rest) 0 [] = ms := rfl
    rw [hms]
    simp only [List.take_zero, List.map_nil, List.sum_nil, Nat.mul_zero, Nat.add_zero,
      jobsEdgeList, predsOf_append]
    rw [fileEdgeList_preds ms f i start none hf' hi']
    have h2 : predsOf (jobsEdgeList (start + 2 * ms.sum) rest)
        (start + 2 * (ms.take f).sum + 2 * i + 1) = [] := by
      apply predsOf_nil_of_ne
      intro e he
      have h3 := jobsEdgeList_targets rest (start + 2 * ms.sum) e he
      have h4 : (ms.take f).sum + i < ms.sum := by
        have h5 := take_sum_add_lt ms f i hf' hi'
        exact h5
      omega
    rw [h2]
    simp
  | ms :: rest, jdx + 1, f, i, start, hj, hf, hi => by
    have hj' : jdx < rest.length := by simpa using hj
    have hnth : nthD (ms :: rest) (jdx + 1) [] = nthD rest jdx [] := rfl
    rw [hnth]
    rw [hnth] at hf hi
    have hsum : (((ms :: rest).take (jdx + 1)).map List.sum).sum
        = ms.sum + ((rest.take jdx).map List.sum).sum := by
      simp [List.take_succ_cons]
    rw [hsum]
    simp only [jobsEdgeList, predsOf_append]
    have h1 : predsOf (fileEdgeList start none ms)
        (start + 2 * (ms.sum + ((rest.take jdx).map List.sum).sum)
          + 2 * ((nthD rest jdx []).take f).sum + 2 * i + 1) = [] := by
      apply predsOf_nil_of_ne
      intro e he
      have h3 := fileEdgeList_targets ms start none e he
      omega
    rw [h1]
    have h3 : start + 2 * (ms.sum + ((rest.take jdx).map List.sum).sum)
          + 2 * ((nthD rest jdx []).take f).sum + 2 * i + 1
        = (start + 2 * ms.sum) + 2 * ((rest.take jdx).map List.sum).sum
          + 2 * ((nthD rest jdx []).take f).sum + 2 * i + 1 := by omega
    rw [h3]
    rw [jobsEdgeList_preds rest jdx f i (start + 2 * ms.sum) hj' hf hi]
    simp only [List.nil_append]
    have h4 : start + 2 * ms.sum + 2 * ((rest.take jdx).map List.sum).sum
        = start + 2 * (ms.sum + ((rest.take jdx).map List.sum).sum) := by omega
    rw [h4]

lemma filesLastPair_some_closed : ∀ (ms : List ℕ) (start : ℕ) (p : ℕ × ℕ),
    (∀ m ∈ ms, 1 ≤ m) →
    filesLastPair start (some p) ms
      = if ms = [] then some p
        else some (start + 2 * ms.sum - 2, start + 2 * ms.sum - 1)
  | [], start, p, _ => by simp [filesLastPair]
  | m :: rest, start, p, h => by
    have hm : 1 ≤ m := h m (by simp)
    obtain ⟨m', rfl⟩ : ∃ k, m = k + 1 := ⟨m - 1, by omega⟩
    simp only [filesLastPair, lastPair]
    rw [filesLastPair_some_closed rest _ _ (fun x hx => h x (by simp [hx]))]
    by_cases hr : rest = []
    · subst hr
      simp only [if_pos, List.cons_ne_nil, if_neg, List.sum_cons, List.sum_nil]
      simp [Prod.ext_iff]
      omega
    · rw [if_neg hr]
      rw [if_neg (by simp : ¬ ((m' + 1 : ℕ) :: rest = []))]
      simp only [List.sum_cons, Option.some.injEq, Prod.mk.injEq]
      omega

lemma filesLastPair_closed : ∀ (ms : List ℕ) (start : ℕ), (∀ m ∈ ms, 1 ≤ m) → ms ≠ [] →
    filesLastPair start none ms = some (start + 2 * ms.sum - 2, start + 2 * ms.sum - 1)
  | [], _, _, h => absurd rfl h
  | m :: rest, start, h, _ => by
    have hm : 1 ≤ m := h m (by simp)
    obtain ⟨m', rfl⟩ : ∃ k, m = k + 1 := ⟨m - 1, by omega⟩
    simp only [filesLastPair, lastPair]
    rw [filesLastPair_some_closed rest _ _ (fun x hx => h x (by simp [hx]))]
    by_cases hr : rest = []
    · subst hr
      simp [Prod.ext_iff]
      omega
    · rw [if_neg hr]
      simp only [List.sum_cons, Option.some.injEq, Prod.mk.injEq]
      omega

lemma nthD_mem : ∀ (l : List α) (k : ℕ) (d : α), k < l.length → nthD l k d ∈ l
  | [], _, _, h => absurd h (by simp)
  | a :: rest, 0, d, _ => by simp [nthD, nthOpt]
  | a :: rest, k + 1, d, h =>
    List.mem_cons_of_mem a (nthD_mem rest k d (by simpa using h))

lemma nthD_map_of_lt (h : α → β) : ∀ (l : List α) (k : ℕ) (d : β) (d' : α), k < l.length →
    nthD (l.map h) k d = h (nthD l k d')
  | [], _, _, _, hh => absurd hh (by simp)
  | a :: rest, 0, _, _, _ => rfl
  | a :: rest, k + 1, d, d', hh => nthD_map_of_lt h rest k d d' (by simpa using hh)

lemma flat_index_decomp : ∀ (l : List ℕ) (x : ℕ), x < l.sum →
    ∃ k r, k < l.length ∧ r < nthD l k 0 ∧ x = (l.take k).sum + r
  | [], x, h => absurd h (by simp)
  | a :: rest, x, h => by
    by_cases hx : x < a
    · exact ⟨0, x, by simp, by simpa [nthD, nthOpt] using hx, by simp⟩
    · have h2 : x - a < rest.sum := by
        simp only [List.sum_cons] at h
        omega
      obtain ⟨k, r, hk, hr, he⟩ := flat_index_decomp rest (x - a) h2
      refine ⟨k + 1, r, by simpa using hk, by simpa [nthD, nthOpt] using hr, ?_⟩
      simp only [List.take_succ_cons, List.sum_cons]
      omega

/-! ### C7: acyclicity and the dual-chain predecessor rule -/

/-- C7: for every run of the streaming DAG builder (every job with at least
one block per file), the generated workflow is acyclic — every control edge
points from an earlier-created task to a later-created one — and the Compute
tasks are exactly the tasks at the indices `computeIdx j f b`, each of whose
predecessor list is exactly: its own paired Transfer task, plus the previous
Compute task of the same file when `b > 0`, plus the previous file's final
Compute task when `b = 0` and `f > 0`, and nothing else. -/
theorem c7_acyclic_dual_chain (jobs : List JobData) (u : Bool) (bs DF : ℚ) (w : Workflow)
    (hpos : ∀ jd ∈ jobs, ∀ s ∈ jd.sizes, 1 ≤ fileBlockCount u bs s)
    (hw : fill_streaming_workflow jobs u bs DF = some w) :
    (∀ e ∈ w.edges, e.1 < e.2) ∧
    (∀ i, nthKind w i = some TaskKind.compute →
      ∃ j f b, j < (allCounts u bs jobs).length ∧
        f < (nthD (allCounts u bs jobs) j []).length ∧
        b < nthD (nthD (allCounts u bs jobs) j []) f 0 ∧
        i = computeIdx (allCounts u bs jobs) j f b) ∧
    (∀ j f b, j < (allCounts u bs jobs).length →
        f < (nthD (allCounts u bs jobs) j []).length →
        b < nthD (nthD (allCounts u bs jobs) j []) f 0 →
      nthKind w (computeIdx (allCounts u bs jobs) j f b) = some TaskKind.compute ∧
      nthKind w (transferIdx (allCounts u bs jobs) j f b) = some TaskKind.transfer ∧
      predsOf w.edges (computeIdx (allCounts u bs jobs) j f b) =
        transferIdx (allCounts u bs jobs) j f b ::
          (if 0 < b then [computeIdx (allCounts u bs jobs) j f (b - 1)]
           else if 0 < f then
             [computeIdx (allCounts u bs jobs) j (f - 1)
                (nthD (nthD (allCounts u bs jobs) j []) (f - 1) 0 - 1)]
           else [])) := by
  have hw' : fillJobs DF u bs jobs 0 ⟨[], [], []⟩ = some w := hw
  obtain ⟨he, hk⟩ := fillJobs_spec DF u bs jobs 0 ⟨[], [], []⟩ w hw'
  have he' : w.edges = jobsEdgeList 0 (allCounts u bs jobs) := by simpa using he
  have hk' : w.tasks.map WTask.kind
      = altKinds (((allCounts u bs jobs).map List.sum).sum) := by simpa using hk
  have hkat : ∀ i, nthKind w i
      = nthOpt (altKinds (((allCounts u bs jobs).map List.sum).sum)) i := by
    intro i
    rw [← hk']
    simp only [nthKind]
    exact (nthOpt_map WTask.kind w.tasks i).symm
  refine ⟨?_, ?_, ?_⟩
  · intro e hee
    rw [he'] at hee
    exact jobsEdgeList_lt (allCounts u bs jobs) 0 e hee
  · intro i hi
    rw [hkat i, altKinds_nthOpt] at hi
    by_cases hlt : i < 2 * (((allCounts u bs jobs).map List.sum).sum)
    · rw [if_pos hlt] at hi
      by_cases hpar : i % 2 = 0
      · rw [if_pos hpar] at hi
        exact absurd hi (by simp)
      · have hq : i = 2 * (i / 2) + 1 := by omega
        have hqlt : i / 2 < ((allCounts u bs jobs).map List.sum).sum := by omega
        obtain ⟨j, r, hj, hr, hqe⟩ :=
          flat_index_decomp ((allCounts u bs jobs).map List.sum) (i / 2) hqlt
        have hjl : j < (allCounts u bs jobs).length := by simpa using hj
        rw [nthD_map_of_lt List.sum (allCounts u bs jobs) j 0 [] hjl] at hr
        obtain ⟨f, b, hf, hb, hre⟩ := flat_index_decomp (nthD (allCounts u bs jobs) j []) r hr
        refine ⟨j, f, b, hjl, hf, hb, ?_⟩
        rw [hq, hqe, hre]
        simp only [computeIdx, fileStartIdx]
        rw [← List.map_take]
        omega
    · rw [if_neg hlt] at hi
      exact absurd hi (by simp)
  · intro j f b hj hf hb
    have hms_pos : ∀ m ∈ nthD (allCounts u bs jobs) j [], 1 ≤ m := by
      intro m hm
      have hmem : nthD (allCounts u bs jobs) j [] ∈ allCounts u bs jobs :=
        nthD_mem _ j [] hj
      simp only [allCounts] at hmem
      obtain ⟨jd, hjd, hje⟩ := List.mem_map.mp hmem
      simp only [allCounts] at hm
      rw [← hje] at hm
      simp only [jobCounts] at hm
      obtain ⟨s, hs, hse⟩ := List.mem_map.mp hm
      rw [← hse]
      exact hpos jd hjd s hs
    have hinner : ((nthD (allCounts u bs jobs) j []).take f).sum + b
        < (nthD (allCounts u bs jobs) j []).sum :=
      take_sum_add_lt _ f b hf hb
    have hjlen : j < ((allCounts u bs jobs).map List.sum).length := by simpa using hj
    have houter := take_sum_add_lt ((allCounts u bs jobs).map List.sum) j
        (((nthD (allCounts u bs jobs) j []).take f).sum + b) hjlen
        (by rw [nthD_map_of_lt List.sum _ j 0 [] hj]; exact hinner)
    rw [← List.map_take] at houter
    refine ⟨?_, ?_, ?_⟩
    · rw [hkat, altKinds_nthOpt]
      rw [if_pos (by simp only [computeIdx, fileStartIdx]; omega)]
      simp only [computeIdx, fileStartIdx]
      rw [if_neg (by omega)]
    · rw [hkat, altKinds_nthOpt]
      rw [if_pos (by simp only [transferIdx, fileStartIdx]; omega)]
      simp only [transferIdx, fileStartIdx]
      rw [if_pos (by omega)]
    · rw [he']
      have hpr := jobsEdgeList_preds (allCounts u bs jobs) j f b 0 hj hf hb
      have ht : computeIdx (allCounts u bs jobs) j f b
          = 0 + 2 * (((allCounts u bs jobs).take j).map List.sum).sum
            + 2 * ((nthD (allCounts u bs jobs) j []).take f).sum + 2 * b + 1 := by
        simp only [computeIdx, fileStartIdx]
        omega
      rw [ht, hpr]
      have hhead : 0 + 2 * (((allCounts u bs jobs).take j).map List.sum).sum
            + 2 * ((nthD (allCounts u bs jobs) j []).take f).sum + 2 * b
          = transferIdx (allCounts u bs jobs) j f b := by
        simp only [transferIdx, fileStartIdx]
        omega
      rw [hhead]
      congr 1
      by_cases hbz : b = 0
      · subst hbz
        rw [if_pos rfl, if_neg (lt_irrefl 0)]
        by_cases hfz : f = 0
        · subst hfz
          rw [if_neg (lt_irrefl 0)]
          simp [filesLastPair]
        · rw [if_pos (Nat.pos_of_ne_zero hfz)]
          have htake_pos : ∀ m ∈ (nthD (allCounts u bs jobs) j []).take f, 1 ≤ m :=
            fun m hm => hms_pos m (List.take_subset f _ hm)
          have htake_ne : (nthD (allCounts u bs jobs) j []).take f ≠ [] := by
            have hl : 0 < ((nthD (allCounts u bs jobs) j []).take f).length := by
              simp only [List.length_take]
              omega
            exact List.ne_nil_of_length_pos hl
          rw [filesLastPair_closed _ _ htake_pos htake_ne]
          simp only [Option.map_some', Option.toList_some]
          have hf1 : f - 1 + 1 = f := by omega
          have hsts := sum_take_succ (nthD (allCounts u bs jobs) j []) (f - 1) (by omega)
          rw [hf1] at hsts
          have hmlast : 1 ≤ nthD (nthD (allCounts u bs jobs) j []) (f - 1) 0 :=
            hms_pos _ (nthD_mem _ (f - 1) 0 (by omega))
          have hcomp : 0 + 2 * (((allCounts u bs jobs).take j).map List.sum).sum
                + 2 * ((nthD (allCounts u bs jobs) j []).take f).sum - 1
              = computeIdx (allCounts u bs jobs) j (f - 1)
                  (nthD (nthD (allCounts u bs jobs) j []) (f - 1) 0 - 1) := by
            simp only [computeIdx, fileStartIdx]
            omega
          rw [hcomp]
      · rw [if_neg hbz, if_pos (Nat.pos_of_ne_zero hbz)]
        have hcomp : transferIdx (allCounts u bs jobs) j f b - 1
            = computeIdx (allCounts u bs jobs) j f (b - 1) := by
          simp only [transferIdx, computeIdx, fileStartIdx]
          omega
        rw [hcomp]

lemma fbc_2500000 : fileBlockCount true 1000000 2500000 = 3 := by
  norm_num [fileBlockCount, blockSizes, effBlockSize]
  simp [List.replicate]
  norm_num

lemma fbc_500000 : fileBlockCount true 1000000 500000 = 1 := by
  norm_num [fileBlockCount, blockSizes, effBlockSize]

/-- Witness for `c7_acyclic_dual_chain` at a concrete input: one job with two
files of 2,500,000 and 500,000 bytes (3 blocks + 1 block); the Compute task
of block 0 of file 1 (index 7) has predecessors exactly its own Transfer
task (index 6) and the previous file's final Compute task (index 5). -/
theorem c7_acyclic_dual_chain_witness :
    ∃ w, fill_streaming_workflow [⟨10, 20, [2500000, 500000]⟩] true 1000000 1 = some w ∧
      (∀ e ∈ w.edges, e.1 < e.2) ∧
      predsOf w.edges 7 = [6, 5] ∧
      nthKind w 7 = some TaskKind.compute := by
  have hpos : ∀ jd ∈ [(⟨10, 20, [2500000, 500000]⟩ : JobData)], ∀ s ∈ jd.sizes,
      1 ≤ fileBlockCount true 1000000 s := by
    intro jd hjd s hs
    simp only [List.mem_singleton] at hjd
    subst hjd
    simp only [List.mem_cons, List.mem_singleton, List.not_mem_nil, or_false] at hs
    rcases hs with h | h <;> subst h
    · rw [fbc_2500000]; omega
    · rw [fbc_500000]
  obtain ⟨w, hw⟩ := fillJobs_isSome 1 true 1000000 [⟨10, 20, [2500000, 500000]⟩] 0 ⟨[], [], []⟩
    (by
      intro jd hjd
      simp only [List.mem_singleton] at hjd
      subst hjd
      exact ⟨2500000, by simp, by rw [fbc_2500000]; omega⟩)
  have hcts : allCounts true 1000000 [⟨10, 20, [2500000, 500000]⟩] = [[3, 1]] := by
    simp [allCounts, jobCounts, fbc_2500000, fbc_500000]
  have hc := c7_acyclic_dual_chain [⟨10, 20, [2500000, 500000]⟩] true 1000000 1 w hpos hw
  refine ⟨w, hw, hc.1, ?_, ?_⟩
  · have h3 := (hc.2.2 0 1 0 (by rw [hcts]; norm_num)
      (by rw [hcts]; norm_num [nthD, nthOpt])
      (by rw [hcts]; norm_num [nthD, nthOpt])).2.2
    rw [hcts] at h3
    norm_num [computeIdx, transferIdx, fileStartIdx, nthD, nthOpt] at h3
    exact h3
  · have h1 := (hc.2.2 0 1 0 (by rw [hcts]; norm_num)
      (by rw [hcts]; norm_num [nthD, nthOpt])
      (by rw [hcts]; norm_num [nthD, nthOpt])).1
    rw [hcts] at h1
    norm_num [computeIdx, fileStartIdx, nthD, nthOpt] at h1
    exact h1
